import Mathlib

/-!
Verification of the arithmetic-worksheet generator (`src/main.rs`).

The Rust program is embedded shallowly:

* `Operation`, `OpsBuilder` mirror the Rust structs; the `HashSet` of used
  keys is modelled as a `List Key` (insertion = `cons`, lookup = membership:
  only membership of the set is ever observed by the program).
* The thread-local RNG is modelled as an explicit stream of raw draws
  (`Rng`), threaded through the computation in program order; `gen_range`
  and `gen_bool` map one raw draw into the requested range.
* The three `while` generation loops do not structurally terminate, so they
  are embedded with an explicit fuel parameter and return `none` when the
  fuel is exhausted before the requested count is reached.  A result of
  `none` for every fuel bound is exactly non-termination of the source loop
  on that draw stream.
* `u32` arithmetic in the skip condition of `generate_ops` is modelled with
  explicit wrap-around modulo `2^32` (`wrapAdd1`, `wrapSub1`).
-/

/-- One arithmetic operation `a op b` (`Operation` struct of the source). -/
structure Operation where
  a : Nat
  b : Nat
  op : Char
deriving DecidableEq, Repr

/-- Dedup key of the source: the tuple `(a, b, op)` stored in the `HashSet`. -/
abbrev Key := Nat × Nat × Char

/-- The canonical key `(op.a, op.b, op.op)` (`key` in the source). -/
def canonKey (op : Operation) : Key := (op.a, op.b, op.op)

/-- The commuted key `(op.b, op.a, op.op)` (`reverse_key` in the source). -/
def commKey (op : Operation) : Key := (op.b, op.a, op.op)

/-- Model of the thread-local RNG: an infinite stream of raw natural draws
together with the position of the next unconsumed draw. -/
structure Rng where
  stream : Nat → Nat
  pos : Nat

/-- Consume one raw draw. -/
def Rng.next (r : Rng) : Nat × Rng := (r.stream r.pos, ⟨r.stream, r.pos + 1⟩)

/-- Model of `rand`'s `gen_range(lo..=hi)` (external crate, not repository
code): one raw draw is reduced into the inclusive range `[lo, hi]`.  For a
valid range (`lo ≤ hi`) the result always lies in `[lo, hi]`. -/
def genRange (lo hi : Nat) (r : Rng) : Nat × Rng :=
  let p := r.next
  (lo + p.1 % (hi + 1 - lo), p.2)

/-- Model of `rand`'s `gen_bool(0.5)`: the parity of one raw draw. -/
def genBool (r : Rng) : Bool × Rng :=
  let p := r.next
  (p.1 % 2 == 0, p.2)

/-- `2^32`, the modulus of Rust `u32` arithmetic. -/
def u32Mod : Nat := 4294967296

/-- Rust `b + 1` at type `u32` (wraps at `2^32`). -/
def wrapAdd1 (b : Nat) : Nat := (b + 1) % u32Mod

/-- Rust `b - 1` at type `u32`: wrapping subtraction, which underflows to
`2^32 - 1` when `b = 0`. -/
def wrapSub1 (b : Nat) : Nat := (b + (u32Mod - 1)) % u32Mod

/-- The skip condition of `generate_ops` (line 147 of the source):
`a == b || a == b + 1 || a == b - 1 || a == 1 || b == 1`, with the `u32`
additions and subtractions taken modulo `2^32`. -/
def skipCond (a b : Nat) : Bool :=
  a == b || a == wrapAdd1 b || a == wrapSub1 b || a == 1 || b == 1

/-- Loop body of `generate_ops`, with fuel.  Mirrors the source `while`
loop: draw `a` and `b`, skip on `skipCond`, draw the operator, and accept
the candidate if its key (and, for `+`, its reverse key) is unused. -/
def generate_ops_go (n lo hi : Nat) :
    Nat → List Operation → List Key → Rng → Option (List Operation × Rng)
  | 0, _, _, _ => none
  | fuel + 1, ops, used, r =>
    if ops.length ≥ n then some (ops, r)
    else
      let pa := genRange lo hi r
      let a := pa.1
      let pb := genRange lo hi pa.2
      let b := pb.1
      if skipCond a b then generate_ops_go n lo hi fuel ops used pb.2
      else
        let pc := genBool pb.2
        if pc.1 then
          if (a, b, '+') ∈ used ∨ (b, a, '+') ∈ used then
            generate_ops_go n lo hi fuel ops used pc.2
          else
            generate_ops_go n lo hi fuel (ops ++ [⟨a, b, '+'⟩])
              ((b, a, '+') :: (a, b, '+') :: used) pc.2
        else
          if b ≤ a then
            if (a, b, '-') ∈ used then
              generate_ops_go n lo hi fuel ops used pc.2
            else
              generate_ops_go n lo hi fuel (ops ++ [⟨a, b, '-'⟩])
                ((a, b, '-') :: used) pc.2
          else generate_ops_go n lo hi fuel ops used pc.2

/-- `generate_ops(n, lo..=hi)` of the source (the `RangeInclusive` argument
is passed as its two bounds), with fuel. -/
def generate_ops (n lo hi fuel : Nat) (r : Rng) : Option (List Operation × Rng) :=
  generate_ops_go n lo hi fuel [] [] r

/-- Loop body of `generate_sub_with_nine`, with fuel. -/
def generate_sub_with_nine_go (n : Nat) :
    Nat → List Operation → List Key → Rng → Option (List Operation × Rng)
  | 0, _, _, _ => none
  | fuel + 1, ops, used, r =>
    if ops.length ≥ n then some (ops, r)
    else
      let pa := genRange 11 18 r
      let a := pa.1
      if (a, 9, '-') ∈ used then generate_sub_with_nine_go n fuel ops used pa.2
      else generate_sub_with_nine_go n fuel (ops ++ [⟨a, 9, '-'⟩]) ((a, 9, '-') :: used) pa.2

/-- `generate_sub_with_nine(n)` of the source, with fuel. -/
def generate_sub_with_nine (n fuel : Nat) (r : Rng) : Option (List Operation × Rng) :=
  generate_sub_with_nine_go n fuel [] [] r

/-- Loop body of `generate_sub_to_nine`, with fuel. -/
def generate_sub_to_nine_go (n : Nat) :
    Nat → List Operation → List Key → Rng → Option (List Operation × Rng)
  | 0, _, _, _ => none
  | fuel + 1, ops, used, r =>
    if ops.length ≥ n then some (ops, r)
    else
      let pa := genRange 11 18 r
      let a := pa.1
      let b := a - 9
      if (a, b, '-') ∈ used then generate_sub_to_nine_go n fuel ops used pa.2
      else generate_sub_to_nine_go n fuel (ops ++ [⟨a, b, '-'⟩]) ((a, b, '-') :: used) pa.2

/-- `generate_sub_to_nine(n)` of the source, with fuel. -/
def generate_sub_to_nine (n fuel : Nat) (r : Rng) : Option (List Operation × Rng) :=
  generate_sub_to_nine_go n fuel [] [] r

/-- The `OpsBuilder` struct of the source. -/
structure OpsBuilder where
  operations : List Operation
  used : List Key
deriving DecidableEq, Repr

/-- `OpsBuilder::new()`. -/
def OpsBuilder.new : OpsBuilder := ⟨[], []⟩

/-- The acceptance condition of `OpsBuilder::add_ops` for one candidate:
`!used.contains(key) && (op == '-' || !used.contains(reverse_key))`. -/
abbrev admits (used : List Key) (op : Operation) : Prop :=
  canonKey op ∉ used ∧ (op.op = '-' ∨ commKey op ∉ used)

/-- One iteration of the `add_ops` loop: accept or discard a candidate. -/
def addOne (s : OpsBuilder) (op : Operation) : OpsBuilder :=
  if admits s.used op then
    { operations := s.operations ++ [op],
      used := if op.op = '+' then commKey op :: canonKey op :: s.used
              else canonKey op :: s.used }
  else s

/-- `OpsBuilder::add_ops`: fold the candidates through `addOne` in order. -/
def OpsBuilder.add_ops (s : OpsBuilder) (new_ops : List Operation) : OpsBuilder :=
  new_ops.foldl addOne s

/-- Swap the entries at positions `i` and `j` (Rust `Vec::swap`; identity
when an index is out of bounds, which the shuffle loop never exercises). -/
def listSwap (l : List α) (i j : Nat) : List α :=
  if h : i < l.length ∧ j < l.length then
    (l.set i (l.get ⟨j, h.2⟩)).set j (l.get ⟨i, h.1⟩)
  else l

/-- The shuffle loop of `OpsBuilder::shuffle`: for `i` from the given start
index down to `1`, swap position `i` with `gen_range(0..=i)`. -/
def shuffleGo : Nat → List Operation → Rng → List Operation × Rng
  | 0, l, r => (l, r)
  | i + 1, l, r =>
    let pj := genRange 0 (i + 1) r
    shuffleGo i (listSwap l (i + 1) pj.1) pj.2

/-- `OpsBuilder::shuffle`, threading the RNG. -/
def OpsBuilder.shuffle (s : OpsBuilder) (r : Rng) : OpsBuilder × Rng :=
  let p := shuffleGo (s.operations.length - 1) s.operations r
  ({ s with operations := p.1 }, p.2)

/-- The line printed for one operation by `OpsBuilder::print`:
`"{}{} {} {}{} ="` with a one-space pad in front of operands below 10. -/
def renderLine (op : Operation) : String :=
  (if op.a < 10 then " " else "") ++ toString op.a ++ " " ++ op.op.toString ++ " "
    ++ (if op.b < 10 then " " else "") ++ toString op.b ++ " ="

/-- `OpsBuilder::print`: the printed lines, and the returned (unchanged)
builder. -/
def OpsBuilder.print (s : OpsBuilder) : List String × OpsBuilder :=
  (s.operations.map renderLine, s)

/-- The pipeline of `main`, parameterised by the three requested counts and
the general generator's range: generate the three batches in program order,
merge them through the shared builder, and shuffle.  `none` when one of the
generation loops does not finish within the fuel bound. -/
def pipeline (n1 lo hi n2 n3 fuel : Nat) (r : Rng) : Option (OpsBuilder × Rng) :=
  match generate_ops n1 lo hi fuel r with
  | none => none
  | some (l1, r1) =>
    match generate_sub_with_nine n2 fuel r1 with
    | none => none
    | some (l2, r2) =>
      match generate_sub_to_nine n3 fuel r2 with
      | none => none
      | some (l3, r3) =>
        some (OpsBuilder.shuffle (((OpsBuilder.new.add_ops l1).add_ops l2).add_ops l3) r3)

/-- The final operation list of a pipeline run. -/
def pipelineOps (n1 lo hi n2 n3 fuel : Nat) (r : Rng) : Option (List Operation) :=
  (pipeline n1 lo hi n2 n3 fuel r).map (fun p => p.1.operations)

/-- Everything a pipeline run writes to standard output: one line per
operation, then the trailing `Done` line of `main`. -/
def pipelineLines (n1 lo hi n2 n3 fuel : Nat) (r : Rng) : Option (List String) :=
  (pipeline n1 lo hi n2 n3 fuel r).map (fun p => (OpsBuilder.print p.1).1 ++ ["Done"])

/-- The output of `main` itself: counts 20/5/5, range `1..=19`. -/
def mainLines (fuel : Nat) (r : Rng) : Option (List String) :=
  pipelineLines 20 1 19 5 5 fuel r

/-- The keys that `add_ops` consults for a candidate: the canonical key,
and also the commuted key unless the operator is `-`. -/
def opKeys (op : Operation) : List Key :=
  if op.op = '-' then [canonKey op] else [canonKey op, commKey op]

/-- All keys consulted for a batch of candidates. -/
def batchKeys (l : List Operation) : List Key := l.flatMap opKeys

/-- The keys inserted into the used set when a candidate is accepted. -/
def insertKeys (op : Operation) (used : List Key) : List Key :=
  if op.op = '+' then commKey op :: canonKey op :: used else canonKey op :: used

/-- The used set after inserting the keys of a whole batch. -/
def foldInsert (used : List Key) (l : List Operation) : List Key :=
  l.foldl (fun u op => insertKeys op u) used

/-- Every candidate of the batch is accepted by `add_ops` when merged into
a builder with the given used set. -/
def admitsAll (used : List Key) : List Operation → Prop
  | [] => True
  | op :: rest => admits used op ∧ admitsAll (insertKeys op used) rest

/-- Uniqueness of a final operation list: no two entries share the
canonical key, and no two `+` entries are equal under the commuted key. -/
def noDupKeys (l : List Operation) : Prop :=
  l.Pairwise (fun o1 o2 => canonKey o1 ≠ canonKey o2 ∧
    (o1.op = '+' → o2.op = '+' → canonKey o1 ≠ commKey o2))

/-- Modelled from the spec: the reference Fisher–Yates shuffle — for `i`
from the start index down to `1`, swap position `i` with the drawn index
`d i` (meant to lie in `[0, i]`). -/
def fyRef (d : Nat → Nat) : Nat → List Operation → List Operation
  | 0, l => l
  | i + 1, l => fyRef d i (listSwap l (i + 1) (d (i + 1)))

/-- The draw space of a Fisher–Yates shuffle of `n` positions: one in-range
draw `d k ≤ k` for every swap index `k ∈ [1, n-1]`, with the draws at the
unused indices pinned (`d 0 = 0` is forced by the bound, `d k = 0` for
`k ≥ n` is required), so the space has exactly `n!` elements — one
independent uniform draw per loop iteration. -/
def fyDrawSpace (n : Nat) : Type :=
  {d : Nat → Nat // (∀ k, d k ≤ k) ∧ ∀ k, n ≤ k → d k = 0}

/-- Override a draw function at one index. -/
def overrideAt (d : Nat → Nat) (n v : Nat) : Nat → Nat :=
  fun k => if k = n then v else d k

/-- The eight possible keys of the subtract-nine generators' value space. -/
def keySpace9 : List Key :=
  [(11, 9, '-'), (12, 9, '-'), (13, 9, '-'), (14, 9, '-'),
   (15, 9, '-'), (16, 9, '-'), (17, 9, '-'), (18, 9, '-')]

/-- A concrete draw stream: the identity (draw `i` at position `i`). -/
def idRng : Rng := ⟨fun i => i, 0⟩

/-- A concrete draw stream: `7` at every position. -/
def sevenRng : Rng := ⟨fun _ => 7, 0⟩

/-- A concrete draw stream reading from a list (`0` past its end). -/
def listRng (l : List Nat) : Rng := ⟨fun i => l.getD i 0, 0⟩






/-! ### Helper lemmas -/

theorem natToStringLen : ∀ n : Nat, n ≤ 99 → (toString n).length = if n < 10 then 1 else 2 := by
  decide

theorem charToStringLen (c : Char) : c.toString.length = 1 := rfl

theorem getLast?_append_done (xs : List String) :
    (xs ++ ["Done"]).getLast? = some "Done" := by
  simp [List.getLast?_concat]

/-! ### Claim C7: printing format -/

/-- Claim C7: `print` renders each problem as `<a> <op> <b> =` with operands
below 10 left-padded to width 2 — in particular `(8, 12, subtract)` renders
as `" 8 - 12 ="` and `(15, 7, add)` as `"15 +  7 ="` (both of length 9, as
is every line with two-digit-or-less operands) — and the output of a run
ends with a final `Done` line. -/
theorem print_format_correct :
    renderLine ⟨8, 12, '-'⟩ = " 8 - 12 ="
  ∧ renderLine ⟨15, 7, '+'⟩ = "15 +  7 ="
  ∧ (∀ op : Operation, op.a ≤ 99 → op.b ≤ 99 → (renderLine op).length = 9)
  ∧ (∀ n1 lo hi n2 n3 fuel r ls, pipelineLines n1 lo hi n2 n3 fuel r = some ls →
      ls.getLast? = some "Done") := by
  refine ⟨by decide, by decide, ?_, ?_⟩
  · intro op ha hb
    have h1 := natToStringLen op.a ha
    have h2 := natToStringLen op.b hb
    unfold renderLine
    by_cases c1 : op.a < 10 <;> by_cases c2 : op.b < 10 <;>
      simp [c1, c2, String.length_append, h1, h2, charToStringLen] <;> decide
  · intro n1 lo hi n2 n3 fuel r ls h
    unfold pipelineLines at h
    rcases Option.map_eq_some'.1 h with ⟨p, _, rfl⟩
    exact getLast?_append_done _

/-- Witness for C7 at a concrete run: counts (0,1,1) with the constant-7
draw stream produce the single problem `18 - 9` and then the `Done` line. -/
theorem print_format_correct_witness :
    renderLine ⟨8, 12, '-'⟩ = " 8 - 12 ="
  ∧ (["18 -  9 =", "Done"] : List String).getLast? = some "Done" :=
  ⟨print_format_correct.1,
   print_format_correct.2.2.2 0 1 19 1 1 5 sevenRng ["18 -  9 =", "Done"] (by decide)⟩

/-! ### Claim C9: the unsigned `b - 1` in the skip condition -/

/-- Claim C9: in the exclusion check of `generate_ops`, `b - 1` is computed
in `u32` arithmetic and wraps to `2^32 - 1` when `b = 0`; for any range
whose lower bound is at least 1 every drawn `b` satisfies `b ≥ 1`, the
subtraction does not wrap, and the whole condition is equivalent to
`a = b ∨ |a - b| = 1 ∨ a = 1 ∨ b = 1`. -/
theorem skip_condition_unsigned_analysis :
    wrapSub1 0 = u32Mod - 1
  ∧ (∀ lo hi : Nat, ∀ r : Rng, 1 ≤ lo → lo ≤ hi → hi < u32Mod →
      1 ≤ (genRange lo hi r).1 ∧ (genRange lo hi r).1 < u32Mod ∧
      wrapSub1 (genRange lo hi r).1 = (genRange lo hi r).1 - 1)
  ∧ (∀ a b : Nat, 1 ≤ a → a < u32Mod → 1 ≤ b → b < u32Mod →
      (skipCond a b = true ↔ a = b ∨ ((a : ℤ) - (b : ℤ)).natAbs = 1 ∨ a = 1 ∨ b = 1)) := by
  refine ⟨by decide, ?_, ?_⟩
  · intro lo hi r hlo hlohi hhi
    have hmod : r.next.1 % (hi + 1 - lo) < hi + 1 - lo := Nat.mod_lt _ (by omega)
    simp only [genRange, wrapSub1, u32Mod] at hhi ⊢
    omega
  · intro a b ha ha' hb hb'
    simp only [u32Mod] at ha' hb'
    simp only [skipCond, wrapAdd1, wrapSub1, u32Mod, Bool.or_eq_true, beq_iff_eq]
    omega

/-- Witness for C9: the concrete invocation range `1..=19` with the
constant-7 stream, and the pair `(5, 4)`. -/
theorem skip_condition_unsigned_analysis_witness :
    1 ≤ (genRange 1 19 sevenRng).1 ∧ skipCond 5 4 = true :=
  ⟨(skip_condition_unsigned_analysis.2.1 1 19 sevenRng (by decide) (by decide) (by decide)).1,
   (skip_condition_unsigned_analysis.2.2 5 4 (by decide) (by decide) (by decide) (by decide)).2
     (Or.inr (Or.inl (by decide)))⟩

/-! ### Claim C10: idempotence of `add_ops` -/

theorem admits_anti (u v : List Key) (op : Operation)
    (hsub : ∀ k, k ∈ u → k ∈ v) (h : admits v op) : admits u op := by
  obtain ⟨h1, h2⟩ := h
  refine ⟨fun hc => h1 (hsub _ hc), ?_⟩
  rcases h2 with h2 | h2
  · exact Or.inl h2
  · exact Or.inr fun hc => h2 (hsub _ hc)

theorem addOne_used_mono (s : OpsBuilder) (op : Operation) (k : Key)
    (h : k ∈ s.used) : k ∈ (addOne s op).used := by
  unfold addOne
  split
  · split <;> simp [h]
  · exact h

theorem add_ops_used_mono (l : List Operation) :
    ∀ (s : OpsBuilder) (k : Key), k ∈ s.used → k ∈ (s.add_ops l).used := by
  induction l with
  | nil => intro s k h; exact h
  | cons o rest ih =>
    intro s k h
    exact ih (addOne s o) k (addOne_used_mono s o k h)

theorem add_ops_of_all_rejected (l : List Operation) :
    ∀ (t : OpsBuilder), (∀ op ∈ l, ¬ admits t.used op) → t.add_ops l = t := by
  induction l with
  | nil => intro t _; rfl
  | cons o rest ih =>
    intro t h
    have h0 : addOne t o = t := by
      unfold addOne
      rw [if_neg (h o (by simp))]
    show (addOne t o).add_ops rest = t
    rw [h0]
    exact ih t fun op hop => h op (by simp [hop])

theorem add_ops_saturates (l : List Operation) :
    ∀ (s : OpsBuilder), ∀ op ∈ l, ¬ admits (s.add_ops l).used op := by
  induction l with
  | nil => simp
  | cons o rest ih =>
    intro s op hop
    have hunf : s.add_ops (o :: rest) = (addOne s o).add_ops rest := rfl
    rcases List.mem_cons.1 hop with rfl | hmem
    · by_cases hadm : admits s.used op
      · have hk : canonKey op ∈ (addOne s op).used := by
          unfold addOne
          rw [if_pos hadm]
          split <;> simp
        have : canonKey op ∈ (s.add_ops (op :: rest)).used := by
          rw [hunf]; exact add_ops_used_mono rest (addOne s op) _ hk
        exact fun hc => hc.1 this
      · intro hc
        exact hadm (admits_anti _ _ _ (fun k hk =>
          hunf ▸ add_ops_used_mono rest (addOne s op) k (addOne_used_mono s op k hk)) hc)
    · rw [hunf]
      exact ih (addOne s o) op hmem

/-- Claim C10: `add_ops` is idempotent — re-adding the same batch changes
nothing, because every candidate's consulted key is already registered. -/
theorem add_ops_idempotent (s : OpsBuilder) (l : List Operation) :
    (s.add_ops l).add_ops l = s.add_ops l :=
  add_ops_of_all_rejected l _ (add_ops_saturates l s)

/-! ### Batch-key bookkeeping for the generator loops -/

theorem foldInsert_nil (u : List Key) : foldInsert u [] = u := rfl

theorem foldInsert_cons (u : List Key) (op : Operation) (l : List Operation) :
    foldInsert u (op :: l) = foldInsert (insertKeys op u) l := rfl

theorem foldInsert_append (u : List Key) (l : List Operation) (op : Operation) :
    foldInsert u (l ++ [op]) = insertKeys op (foldInsert u l) := by
  unfold foldInsert
  simp

theorem mem_insertKeys (k : Key) (op : Operation) (u : List Key) :
    k ∈ insertKeys op u ↔ k = canonKey op ∨ (op.op = '+' ∧ k = commKey op) ∨ k ∈ u := by
  unfold insertKeys
  split <;> rename_i h
  · simp [h]
    tauto
  · simp [h]

theorem mem_foldInsert_of_mem (l : List Operation) :
    ∀ (u : List Key) (k : Key), k ∈ u → k ∈ foldInsert u l := by
  induction l with
  | nil => intro u k h; exact h
  | cons o rest ih =>
    intro u k h
    rw [foldInsert_cons]
    exact ih _ k ((mem_insertKeys k o u).2 (Or.inr (Or.inr h)))

theorem canonKey_mem_foldInsert (l : List Operation) :
    ∀ (u : List Key), ∀ op ∈ l, canonKey op ∈ foldInsert u l := by
  induction l with
  | nil => simp
  | cons o rest ih =>
    intro u op hop
    rw [foldInsert_cons]
    rcases List.mem_cons.1 hop with rfl | hmem
    · exact mem_foldInsert_of_mem rest _ _ ((mem_insertKeys _ op u).2 (Or.inl rfl))
    · exact ih _ op hmem

theorem batchKeys_cons (op : Operation) (l : List Operation) :
    batchKeys (op :: l) = opKeys op ++ batchKeys l := by
  simp [batchKeys]

theorem mem_opKeys_canon (op : Operation) : canonKey op ∈ opKeys op := by
  unfold opKeys; split <;> simp

theorem mem_opKeys_comm (op : Operation) (hne : ¬ op.op = '-') : commKey op ∈ opKeys op := by
  simp [opKeys, hne]

theorem insertKeys_subset_opKeys (k : Key) (op : Operation) (u : List Key)
    (h : k ∈ insertKeys op u) : k ∈ opKeys op ∨ k ∈ u := by
  rcases (mem_insertKeys k op u).1 h with rfl | ⟨hp, rfl⟩ | h'
  · exact Or.inl (mem_opKeys_canon op)
  · exact Or.inl (mem_opKeys_comm op (by rw [hp]; decide))
  · exact Or.inr h'

theorem mem_foldInsert (l : List Operation) :
    ∀ (u : List Key) (k : Key), k ∈ foldInsert u l → k ∈ u ∨ k ∈ batchKeys l := by
  induction l with
  | nil => intro u k h; exact Or.inl h
  | cons o rest ih =>
    intro u k h
    rw [foldInsert_cons] at h
    rcases ih _ k h with h' | h'
    · rcases insertKeys_subset_opKeys k o u h' with h'' | h''
      · exact Or.inr (by rw [batchKeys_cons]; exact List.mem_append_left _ h'')
      · exact Or.inl h''
    · exact Or.inr (by rw [batchKeys_cons]; exact List.mem_append_right _ h')

theorem admitsAll_append (l : List Operation) (op : Operation) :
    ∀ (u : List Key),
      admitsAll u (l ++ [op]) ↔ admitsAll u l ∧ admits (foldInsert u l) op := by
  induction l with
  | nil => intro u; simp [admitsAll, foldInsert_nil]
  | cons o rest ih =>
    intro u
    show admits u o ∧ admitsAll (insertKeys o u) (rest ++ [op]) ↔ _
    rw [ih (insertKeys o u), foldInsert_cons]
    show _ ↔ (admits u o ∧ admitsAll (insertKeys o u) rest) ∧ _
    tauto

/-! ### Specifications of the two subtract-nine generator loops -/

theorem genRange_bounds (lo hi : Nat) (r : Rng) (h : lo ≤ hi) :
    lo ≤ (genRange lo hi r).1 ∧ (genRange lo hi r).1 ≤ hi := by
  have : r.next.1 % (hi + 1 - lo) < hi + 1 - lo := Nat.mod_lt _ (by omega)
  simp only [genRange]
  omega

theorem sub_with_nine_go_eq (n fuel : Nat) (ops : List Operation) (used : List Key) (r : Rng) :
    generate_sub_with_nine_go n (fuel + 1) ops used r =
      if ops.length ≥ n then some (ops, r)
      else if ((genRange 11 18 r).1, 9, '-') ∈ used then
        generate_sub_with_nine_go n fuel ops used (genRange 11 18 r).2
      else
        generate_sub_with_nine_go n fuel (ops ++ [⟨(genRange 11 18 r).1, 9, '-'⟩])
          (((genRange 11 18 r).1, 9, '-') :: used) (genRange 11 18 r).2 := rfl

theorem sub_to_nine_go_eq (n fuel : Nat) (ops : List Operation) (used : List Key) (r : Rng) :
    generate_sub_to_nine_go n (fuel + 1) ops used r =
      if ops.length ≥ n then some (ops, r)
      else if ((genRange 11 18 r).1, (genRange 11 18 r).1 - 9, '-') ∈ used then
        generate_sub_to_nine_go n fuel ops used (genRange 11 18 r).2
      else
        generate_sub_to_nine_go n fuel
          (ops ++ [⟨(genRange 11 18 r).1, (genRange 11 18 r).1 - 9, '-'⟩])
          (((genRange 11 18 r).1, (genRange 11 18 r).1 - 9, '-') :: used) (genRange 11 18 r).2 := rfl

theorem canon_not_mem_map (ops : List Operation) (used : List Key)
    (hused : used = foldInsert [] ops) (o : Operation) (h : canonKey o ∉ used) :
    canonKey o ∉ ops.map canonKey := by
  intro hc
  rcases List.mem_map.1 hc with ⟨op', hop', heq⟩
  exact h (hused ▸ heq ▸ canonKey_mem_foldInsert ops [] op' hop')

theorem sub_with_nine_go_spec (n : Nat) : ∀ (fuel : Nat) (ops : List Operation)
    (used : List Key) (r : Rng) (l : List Operation) (r' : Rng),
    generate_sub_with_nine_go n fuel ops used r = some (l, r') →
    ops.length ≤ n → used = foldInsert [] ops → admitsAll [] ops →
    (ops.map canonKey).Nodup →
    (∀ op ∈ ops, op.op = '-' ∧ op.b = 9 ∧ 11 ≤ op.a ∧ op.a ≤ 18) →
    l.length = n ∧ admitsAll [] l ∧ (l.map canonKey).Nodup ∧
      (∀ op ∈ l, op.op = '-' ∧ op.b = 9 ∧ 11 ≤ op.a ∧ op.a ≤ 18) := by
  intro fuel
  induction fuel with
  | zero =>
    intro ops used r l r' h
    simp [generate_sub_with_nine_go] at h
  | succ fuel ih =>
    intro ops used r l r' h hlen hused hadm hnd hP
    rw [sub_with_nine_go_eq] at h
    by_cases hge : ops.length ≥ n
    · rw [if_pos hge] at h
      simp only [Option.some.injEq, Prod.mk.injEq] at h
      obtain ⟨rfl, rfl⟩ := h
      exact ⟨by omega, hadm, hnd, hP⟩
    · rw [if_neg hge] at h
      set a := (genRange 11 18 r).1 with ha
      by_cases hin : ((a, 9, '-') : Key) ∈ used
      · rw [if_pos hin] at h
        exact ih ops used _ l r' h hlen hused hadm hnd hP
      · rw [if_neg hin] at h
        have hab := genRange_bounds 11 18 r (by omega)
        refine ih _ _ _ l r' h ?_ ?_ ?_ ?_ ?_
        · simp; omega
        · rw [foldInsert_append, ← hused]
          rfl
        · exact (admitsAll_append ops _ []).2 ⟨hadm, by
            rw [← hused]
            exact ⟨hin, Or.inl rfl⟩⟩
        · rw [List.map_append]
          simp only [List.map_cons, List.map_nil]
          refine List.Nodup.append hnd (List.nodup_singleton _) ?_
          intro k hk hk'
          simp at hk'
          subst hk'
          exact canon_not_mem_map ops used hused ⟨a, 9, '-'⟩ hin hk
        · intro op hop
          rcases List.mem_append.1 hop with hmem | hmem
          · exact hP op hmem
          · simp at hmem
            subst hmem
            exact ⟨rfl, rfl, hab.1, hab.2⟩

theorem sub_to_nine_go_spec (n : Nat) : ∀ (fuel : Nat) (ops : List Operation)
    (used : List Key) (r : Rng) (l : List Operation) (r' : Rng),
    generate_sub_to_nine_go n fuel ops used r = some (l, r') →
    ops.length ≤ n → used = foldInsert [] ops → admitsAll [] ops →
    (ops.map canonKey).Nodup →
    (∀ op ∈ ops, op.op = '-' ∧ op.b = op.a - 9 ∧ 11 ≤ op.a ∧ op.a ≤ 18) →
    l.length = n ∧ admitsAll [] l ∧ (l.map canonKey).Nodup ∧
      (∀ op ∈ l, op.op = '-' ∧ op.b = op.a - 9 ∧ 11 ≤ op.a ∧ op.a ≤ 18) := by
  intro fuel
  induction fuel with
  | zero =>
    intro ops used r l r' h
    simp [generate_sub_to_nine_go] at h
  | succ fuel ih =>
    intro ops used r l r' h hlen hused hadm hnd hP
    rw [sub_to_nine_go_eq] at h
    by_cases hge : ops.length ≥ n
    · rw [if_pos hge] at h
      simp only [Option.some.injEq, Prod.mk.injEq] at h
      obtain ⟨rfl, rfl⟩ := h
      exact ⟨by omega, hadm, hnd, hP⟩
    · rw [if_neg hge] at h
      set a := (genRange 11 18 r).1 with ha
      by_cases hin : ((a, a - 9, '-') : Key) ∈ used
      · rw [if_pos hin] at h
        exact ih ops used _ l r' h hlen hused hadm hnd hP
      · rw [if_neg hin] at h
        have hab := genRange_bounds 11 18 r (by omega)
        refine ih _ _ _ l r' h ?_ ?_ ?_ ?_ ?_
        · simp; omega
        · rw [foldInsert_append, ← hused]
          rfl
        · exact (admitsAll_append ops _ []).2 ⟨hadm, by
            rw [← hused]
            exact ⟨hin, Or.inl rfl⟩⟩
        · rw [List.map_append]
          simp only [List.map_cons, List.map_nil]
          refine List.Nodup.append hnd (List.nodup_singleton _) ?_
          intro k hk hk'
          simp at hk'
          subst hk'
          exact canon_not_mem_map ops used hused ⟨a, a - 9, '-'⟩ hin hk
        · intro op hop
          rcases List.mem_append.1 hop with hmem | hmem
          · exact hP op hmem
          · simp at hmem
            subst hmem
            exact ⟨rfl, rfl, hab.1, hab.2⟩

/-! ### Claim C5: correctness of the two subtract-nine generators -/

/-- Claim C5: every problem returned by `generate_sub_with_nine` is a
subtraction with `b = 9` and `a ∈ [11, 18]`; every problem returned by
`generate_sub_to_nine` is a subtraction with `a ∈ [11, 18]` and
`a - b = 9`; every terminating call returns exactly `n` pairwise-distinct
problems, and for every `n ≤ 8` a terminating run exists. -/
theorem sub_nine_generators_correct :
    (∀ n fuel r l, (generate_sub_with_nine n fuel r).map Prod.fst = some l →
      l.length = n ∧ l.Nodup ∧
      ∀ op ∈ l, op.op = '-' ∧ op.b = 9 ∧ 11 ≤ op.a ∧ op.a ≤ 18)
  ∧ (∀ n fuel r l, (generate_sub_to_nine n fuel r).map Prod.fst = some l →
      l.length = n ∧ l.Nodup ∧
      ∀ op ∈ l, op.op = '-' ∧ 11 ≤ op.a ∧ op.a ≤ 18 ∧ op.b = op.a - 9 ∧ op.a - op.b = 9)
  ∧ (∀ n, n ≤ 8 →
      (generate_sub_with_nine n 9 idRng).map (fun p => p.1.length) = some n ∧
      (generate_sub_to_nine n 9 idRng).map (fun p => p.1.length) = some n) := by
  refine ⟨?_, ?_, by decide⟩
  · intro n fuel r l h
    rcases Option.map_eq_some'.1 h with ⟨⟨l', r'⟩, hgen, hl⟩
    subst hl
    obtain ⟨hlen, _, hnd, hP⟩ :=
      sub_with_nine_go_spec n fuel [] [] r l' r' hgen (by simp) rfl trivial (by simp) (by simp)
    exact ⟨hlen, hnd.of_map _, hP⟩
  · intro n fuel r l h
    rcases Option.map_eq_some'.1 h with ⟨⟨l', r'⟩, hgen, hl⟩
    subst hl
    obtain ⟨hlen, _, hnd, hP⟩ :=
      sub_to_nine_go_spec n fuel [] [] r l' r' hgen (by simp) rfl trivial (by simp) (by simp)
    refine ⟨hlen, hnd.of_map _, ?_⟩
    intro op hop
    obtain ⟨h1, h2, h3, h4⟩ := hP op hop
    exact ⟨h1, h3, h4, h2, by omega⟩

/-- Witness for C5: a run of each generator with `n = 1` on the identity
draw stream returns exactly one problem. -/
theorem sub_nine_generators_correct_witness :
    ([(⟨11, 9, '-'⟩ : Operation)].length = 1) ∧ ([(⟨11, 2, '-'⟩ : Operation)].length = 1) :=
  ⟨(sub_nine_generators_correct.1 1 2 idRng [⟨11, 9, '-'⟩] (by decide)).1,
   (sub_nine_generators_correct.2.1 1 2 idRng [⟨11, 2, '-'⟩] (by decide)).1⟩

/-! ### Claim C3: requesting nine subtract-nine problems never terminates -/

/-- Claim C3 (behaviour of the code at the failing input): requesting 9
problems from `generate_sub_with_nine` exceeds the 8-key value space, so
the loop never returns, for any draw stream and any fuel bound — the
program hangs instead of raising a capacity error. -/
theorem sub_with_nine_nine_never_terminates :
    ∀ fuel r, generate_sub_with_nine 9 fuel r = none := by
  intro fuel r
  cases h : generate_sub_with_nine 9 fuel r with
  | none => rfl
  | some p =>
    exfalso
    obtain ⟨hlen, _, hnd, hP⟩ :=
      sub_with_nine_go_spec 9 fuel [] [] r p.1 p.2 h (by simp) rfl trivial (by simp) (by simp)
    have hsub : (p.1.map canonKey).toFinset ⊆ keySpace9.toFinset := by
      intro k hk
      rcases List.mem_map.1 (List.mem_toFinset.1 hk) with ⟨op, hop, rfl⟩
      obtain ⟨h1, h2, h3, h4⟩ := hP op hop
      rw [List.mem_toFinset]
      rcases op with ⟨a, b, c⟩
      simp only at h1 h2 h3 h4
      subst h1; subst h2
      simp only [canonKey, keySpace9]
      interval_cases a <;> simp
    have hcard : (p.1.map canonKey).toFinset.card = (p.1.map canonKey).length :=
      List.toFinset_card_of_nodup hnd
    have hle : (p.1.map canonKey).toFinset.card ≤ keySpace9.toFinset.card :=
      Finset.card_le_card hsub
    have h9 : keySpace9.toFinset.card ≤ 8 := by decide
    rw [hcard, List.length_map, hlen] at hle
    omega

/-! ### Specification of the general generator loop -/

theorem skipCond_false (a b hi : Nat) (ha : a ≤ hi) (hb : b ≤ hi) (hhi : hi < u32Mod)
    (h : skipCond a b = false) :
    a ≠ b ∧ a ≠ b + 1 ∧ b ≠ a + 1 ∧ a ≠ 1 ∧ b ≠ 1 := by
  simp only [u32Mod] at hhi
  simp only [skipCond, wrapAdd1, wrapSub1, u32Mod, Bool.or_eq_false_iff,
    beq_eq_false_iff_ne, ne_eq] at h
  omega

theorem generate_ops_go_spec (n lo hi : Nat) (hlohi : lo ≤ hi) (hhi : hi < u32Mod) :
    ∀ (fuel : Nat) (ops : List Operation) (used : List Key) (r : Rng)
      (l : List Operation) (r' : Rng),
    generate_ops_go n lo hi fuel ops used r = some (l, r') →
    ops.length ≤ n → used = foldInsert [] ops → admitsAll [] ops →
    (∀ op ∈ ops, (lo ≤ op.a ∧ op.a ≤ hi ∧ lo ≤ op.b ∧ op.b ≤ hi) ∧
      (op.a ≠ op.b ∧ op.a ≠ op.b + 1 ∧ op.b ≠ op.a + 1 ∧ op.a ≠ 1 ∧ op.b ≠ 1) ∧
      (op.op = '+' ∨ op.op = '-') ∧ (op.op = '-' → op.b ≤ op.a)) →
    l.length = n ∧ admitsAll [] l ∧
      ∀ op ∈ l, (lo ≤ op.a ∧ op.a ≤ hi ∧ lo ≤ op.b ∧ op.b ≤ hi) ∧
        (op.a ≠ op.b ∧ op.a ≠ op.b + 1 ∧ op.b ≠ op.a + 1 ∧ op.a ≠ 1 ∧ op.b ≠ 1) ∧
        (op.op = '+' ∨ op.op = '-') ∧ (op.op = '-' → op.b ≤ op.a) := by
  intro fuel
  induction fuel with
  | zero =>
    intro ops used r l r' h
    simp [generate_ops_go] at h
  | succ fuel ih =>
    intro ops used r l r' h hlen hused hadm hP
    simp only [generate_ops_go] at h
    split at h
    case isTrue hge =>
      simp only [Option.some.injEq, Prod.mk.injEq] at h
      obtain ⟨rfl, rfl⟩ := h
      exact ⟨by omega, hadm, hP⟩
    case isFalse hge =>
      have hA := genRange_bounds lo hi r hlohi
      have hB := genRange_bounds lo hi (genRange lo hi r).2 hlohi
      split at h
      case isTrue hskip => exact ih _ _ _ l r' h hlen hused hadm hP
      case isFalse hskip =>
        have hskip' : skipCond (genRange lo hi r).1 (genRange lo hi (genRange lo hi r).2).1
            = false := by simpa using hskip
        have hexcl := skipCond_false _ _ hi hA.2 hB.2 hhi hskip'
        split at h
        case isTrue hcoin =>
          split at h
          case isTrue hmem => exact ih _ _ _ l r' h hlen hused hadm hP
          case isFalse hmem =>
            rw [not_or] at hmem
            refine ih _ _ _ l r' h ?_ ?_ ?_ ?_
            · simp
              omega
            · rw [foldInsert_append, ← hused]
              rfl
            · refine (admitsAll_append ops _ []).2 ⟨hadm, ?_⟩
              rw [← hused]
              exact ⟨hmem.1, Or.inr hmem.2⟩
            · intro op hop
              rcases List.mem_append.1 hop with hm | hm
              · exact hP op hm
              · simp only [List.mem_singleton] at hm
                subst hm
                refine ⟨⟨hA.1, hA.2, hB.1, hB.2⟩, hexcl, Or.inl rfl, ?_⟩
                intro hc
                simp at hc
        case isFalse hcoin =>
          split at h
          case isTrue hba =>
            split at h
            case isTrue hmem => exact ih _ _ _ l r' h hlen hused hadm hP
            case isFalse hmem =>
              refine ih _ _ _ l r' h ?_ ?_ ?_ ?_
              · simp
                omega
              · rw [foldInsert_append, ← hused]
                rfl
              · refine (admitsAll_append ops _ []).2 ⟨hadm, ?_⟩
                rw [← hused]
                exact ⟨hmem, Or.inl rfl⟩
              · intro op hop
                rcases List.mem_append.1 hop with hm | hm
                · exact hP op hm
                · simp only [List.mem_singleton] at hm
                  subst hm
                  exact ⟨⟨hA.1, hA.2, hB.1, hB.2⟩, hexcl, Or.inr rfl, fun _ => hba⟩
          case isFalse hba => exact ih _ _ _ l r' h hlen hused hadm hP

/-! ### Claim C4: range compliance and exclusions of the general generator -/

/-- Claim C4: every problem of `generate_ops(n, lo..=hi)` has both operands
in `[lo, hi]` and satisfies none of `a = b`, `|a - b| = 1`, `a = 1`,
`b = 1`. -/
theorem generate_ops_range_and_exclusions (n lo hi fuel : Nat) (r : Rng)
    (l : List Operation) (op : Operation)
    (hlo : lo ≤ hi) (hhi : hi < u32Mod)
    (h : (generate_ops n lo hi fuel r).map Prod.fst = some l) (hop : op ∈ l) :
    (lo ≤ op.a ∧ op.a ≤ hi ∧ lo ≤ op.b ∧ op.b ≤ hi) ∧
    op.a ≠ op.b ∧ ((op.a : ℤ) - (op.b : ℤ)).natAbs ≠ 1 ∧ op.a ≠ 1 ∧ op.b ≠ 1 := by
  rcases Option.map_eq_some'.1 h with ⟨⟨l', r'⟩, hgen, hl⟩
  subst hl
  obtain ⟨-, -, hP⟩ := generate_ops_go_spec n lo hi hlo hhi fuel [] [] r l' r' hgen
    (by simp) rfl trivial (by simp)
  obtain ⟨hb, hex, -, -⟩ := hP op hop
  exact ⟨hb, hex.1, by omega, hex.2.2.2⟩

/-- Witness for C4: a run of `generate_ops(1, 1..=19)` on the draw list
`[1, 3, 0]` accepts exactly the problem `2 + 4`. -/
theorem generate_ops_range_and_exclusions_witness :
    (1 ≤ (⟨2, 4, '+'⟩ : Operation).a ∧ (⟨2, 4, '+'⟩ : Operation).a ≤ 19 ∧
      1 ≤ (⟨2, 4, '+'⟩ : Operation).b ∧ (⟨2, 4, '+'⟩ : Operation).b ≤ 19) ∧
    (⟨2, 4, '+'⟩ : Operation).a ≠ (⟨2, 4, '+'⟩ : Operation).b ∧
    (((⟨2, 4, '+'⟩ : Operation).a : ℤ) - ((⟨2, 4, '+'⟩ : Operation).b : ℤ)).natAbs ≠ 1 ∧
    (⟨2, 4, '+'⟩ : Operation).a ≠ 1 ∧ (⟨2, 4, '+'⟩ : Operation).b ≠ 1 :=
  generate_ops_range_and_exclusions 1 1 19 5 (listRng [1, 3, 0]) [⟨2, 4, '+'⟩] ⟨2, 4, '+'⟩
    (by decide) (by decide) (by decide) (by decide)

/-! ### Swap and shuffle permutation lemmas -/

theorem set_get_self : ∀ (l : List α) (n : Nat) (h : n < l.length),
    l.set n (l.get ⟨n, h⟩) = l := by
  intro l
  induction l with
  | nil => intro n h; simp at h
  | cons a t ih =>
    intro n h
    cases n with
    | zero => rfl
    | succ m => exact congrArg (List.cons a) (ih m (Nat.lt_of_succ_lt_succ h))

theorem set_get_perm (l : List α) (j : Nat) (hj : j < l.length) (x : α) :
    List.Perm (l.set j x ++ [l[j]]) (l ++ [x]) := by
  rw [List.set_eq_take_cons_drop x hj]
  conv_rhs => rw [← List.take_append_drop j l]
  rw [List.drop_eq_getElem_cons hj]
  simp only [List.cons_append, List.append_assoc]
  refine List.Perm.append_left _ ?_
  refine List.Perm.trans (List.Perm.cons x (List.perm_append_singleton _ _)) ?_
  refine List.Perm.trans (List.Perm.swap _ _ _) ?_
  exact List.Perm.cons _ (List.perm_append_singleton _ _).symm

theorem listSwap_perm (l : List α) (i j : Nat) : List.Perm (listSwap l i j) l := by
  unfold listSwap
  split
  case isFalse _ => exact List.Perm.refl _
  case isTrue h =>
    obtain ⟨hi, hj⟩ := h
    simp only [List.get_eq_getElem]
    by_cases hij : i = j
    · subst hij
      rw [List.set_set]
      have hself := set_get_self l i hi
      simp only [List.get_eq_getElem] at hself
      rw [hself]
    · have h1 := set_get_perm (l.set i (l[j])) j (by simpa using hj) (l[i])
      rw [List.getElem_set_ne hij] at h1
      have h2 := set_get_perm l i hi (l[j])
      exact (List.perm_append_right_iff _).1 (h1.trans h2)

theorem shuffleGo_perm : ∀ (i : Nat) (l : List Operation) (r : Rng),
    List.Perm (shuffleGo i l r).1 l := by
  intro i
  induction i with
  | zero => intro l r; exact List.Perm.refl _
  | succ i ih =>
    intro l r
    exact (ih _ _).trans (listSwap_perm l (i + 1) _)

theorem shuffle_perm (s : OpsBuilder) (r : Rng) :
    List.Perm (OpsBuilder.shuffle s r).1.operations s.operations :=
  shuffleGo_perm _ _ _

/-! ### Membership through `add_ops` and the pipeline -/

theorem add_ops_mem (l : List Operation) :
    ∀ (s : OpsBuilder) (op : Operation),
      op ∈ (s.add_ops l).operations → op ∈ s.operations ∨ op ∈ l := by
  induction l with
  | nil => intro s op h; exact Or.inl h
  | cons o rest ih =>
    intro s op h
    rcases ih (addOne s o) op h with h' | h'
    · unfold addOne at h'
      split at h'
      · rcases List.mem_append.1 h' with h'' | h''
        · exact Or.inl h''
        · simp only [List.mem_singleton] at h''
          subst h''
          exact Or.inr (List.mem_cons_self _ _)
      · exact Or.inl h'
    · exact Or.inr (List.mem_cons_of_mem _ h')

theorem pipeline_cases (n1 lo hi n2 n3 fuel : Nat) (r : Rng) (b : OpsBuilder) (r4 : Rng)
    (h : pipeline n1 lo hi n2 n3 fuel r = some (b, r4)) :
    ∃ l1 r1 l2 r2 l3 r3,
      generate_ops n1 lo hi fuel r = some (l1, r1) ∧
      generate_sub_with_nine n2 fuel r1 = some (l2, r2) ∧
      generate_sub_to_nine n3 fuel r2 = some (l3, r3) ∧
      (b, r4) = OpsBuilder.shuffle (((OpsBuilder.new.add_ops l1).add_ops l2).add_ops l3) r3 := by
  unfold pipeline at h
  split at h
  next hg1 => exact absurd h (by simp)
  next l1 r1 hg1 =>
    split at h
    next hg2 => exact absurd h (by simp)
    next l2 r2 hg2 =>
      split at h
      next hg3 => exact absurd h (by simp)
      next l3 r3 hg3 =>
        simp only [Option.some.injEq] at h
        exact ⟨l1, r1, l2, r2, l3, r3, hg1, hg2, hg3, h.symm⟩

theorem generate_ops_go_nonneg (n lo hi : Nat) : ∀ (fuel : Nat) (ops : List Operation)
    (used : List Key) (r : Rng) (l : List Operation) (r' : Rng),
    generate_ops_go n lo hi fuel ops used r = some (l, r') →
    (∀ op ∈ ops, op.op = '-' → op.b ≤ op.a) →
    ∀ op ∈ l, op.op = '-' → op.b ≤ op.a := by
  intro fuel
  induction fuel with
  | zero =>
    intro ops used r l r' h
    simp [generate_ops_go] at h
  | succ fuel ih =>
    intro ops used r l r' h hP
    simp only [generate_ops_go] at h
    split at h
    case isTrue hge =>
      simp only [Option.some.injEq, Prod.mk.injEq] at h
      obtain ⟨rfl, rfl⟩ := h
      exact hP
    case isFalse hge =>
      split at h
      case isTrue hskip => exact ih _ _ _ l r' h hP
      case isFalse hskip =>
        split at h
        case isTrue hcoin =>
          split at h
          case isTrue hmem => exact ih _ _ _ l r' h hP
          case isFalse hmem =>
            refine ih _ _ _ l r' h ?_
            intro op hop
            rcases List.mem_append.1 hop with hm | hm
            · exact hP op hm
            · simp only [List.mem_singleton] at hm
              subst hm
              intro hc
              simp at hc
        case isFalse hcoin =>
          split at h
          case isTrue hba =>
            split at h
            case isTrue hmem => exact ih _ _ _ l r' h hP
            case isFalse hmem =>
              refine ih _ _ _ l r' h ?_
              intro op hop
              rcases List.mem_append.1 hop with hm | hm
              · exact hP op hm
              · simp only [List.mem_singleton] at hm
                subst hm
                exact fun _ => hba
          case isFalse hba => exact ih _ _ _ l r' h hP

/-! ### Claim C6: subtract problems never go negative -/

/-- Claim C6: every subtract problem produced by any of the three
generators — and hence every subtract problem in the final output —
satisfies `a ≥ b`. -/
theorem pipeline_subtract_nonneg (n1 lo hi n2 n3 fuel : Nat) (r : Rng)
    (l : List Operation) (op : Operation)
    (h : pipelineOps n1 lo hi n2 n3 fuel r = some l)
    (hop : op ∈ l) (hsub : op.op = '-') : op.b ≤ op.a := by
  unfold pipelineOps at h
  rcases Option.map_eq_some'.1 h with ⟨⟨b, r4⟩, hp, hbl⟩
  obtain ⟨l1, r1, l2, r2, l3, r3, hg1, hg2, hg3, heq⟩ :=
    pipeline_cases n1 lo hi n2 n3 fuel r b r4 hp
  have hb : b = (OpsBuilder.shuffle (((OpsBuilder.new.add_ops l1).add_ops l2).add_ops l3) r3).1 :=
    congrArg Prod.fst heq
  have hmem0 : op ∈ b.operations := by
    simp only at hbl
    rw [hbl]
    exact hop
  have hmem : op ∈ ((((OpsBuilder.new.add_ops l1).add_ops l2).add_ops l3)).operations := by
    have := shuffle_perm (((OpsBuilder.new.add_ops l1).add_ops l2).add_ops l3) r3
    exact this.mem_iff.1 (hb ▸ hmem0)
  rcases add_ops_mem l3 _ op hmem with h3 | h3
  · rcases add_ops_mem l2 _ op h3 with h2 | h2
    · rcases add_ops_mem l1 _ op h2 with h1 | h1
      · simp [OpsBuilder.new] at h1
      · exact generate_ops_go_nonneg n1 lo hi fuel [] [] r l1 r1 hg1 (by simp) op h1 hsub
    · obtain ⟨-, -, -, hP⟩ := sub_with_nine_go_spec n2 fuel [] [] r1 l2 r2 hg2
        (by simp) rfl trivial (by simp) (by simp)
      obtain ⟨-, hb9, ha11, -⟩ := hP op h2
      omega
  · obtain ⟨-, -, -, hP⟩ := sub_to_nine_go_spec n3 fuel [] [] r2 l3 r3 hg3
      (by simp) rfl trivial (by simp) (by simp)
    obtain ⟨-, hba, -, -⟩ := hP op h3
    omega

/-- Witness for C6 at the concrete run with counts (0, 1, 1) on the
constant-7 stream, whose single output problem is `18 - 9`. -/
theorem pipeline_subtract_nonneg_witness :
    (⟨18, 9, '-'⟩ : Operation).b ≤ (⟨18, 9, '-'⟩ : Operation).a :=
  pipeline_subtract_nonneg 0 1 19 1 1 5 sevenRng [⟨18, 9, '-'⟩] ⟨18, 9, '-'⟩
    (by decide) (by decide) (by decide)

/-! ### Claim C1: uniqueness of keys in the final output -/

theorem uniq_rel_symm : Symmetric (fun o1 o2 : Operation =>
    canonKey o1 ≠ canonKey o2 ∧
    (o1.op = '+' → o2.op = '+' → canonKey o1 ≠ commKey o2)) := by
  intro o1 o2 h
  refine ⟨fun hc => h.1 hc.symm, fun h2 h1 hc => ?_⟩
  refine h.2 h1 h2 ?_
  simp only [canonKey, commKey, Prod.mk.injEq] at hc ⊢
  tauto

theorem addOne_inv (s : OpsBuilder) (op : Operation)
    (h1 : ∀ o ∈ s.operations, canonKey o ∈ s.used) (h2 : noDupKeys s.operations) :
    (∀ o ∈ (addOne s op).operations, canonKey o ∈ (addOne s op).used) ∧
      noDupKeys (addOne s op).operations := by
  unfold addOne
  split
  case isFalse => exact ⟨h1, h2⟩
  case isTrue hadm =>
    constructor
    · intro o ho
      simp only [List.mem_append] at ho
      rcases ho with hm | hm
      · have := h1 o hm
        split <;> simp [this]
      · simp only [List.mem_singleton] at hm
        subst hm
        split <;> simp
    · unfold noDupKeys at h2 ⊢
      simp only
      rw [List.pairwise_append]
      refine ⟨h2, List.pairwise_singleton _ _, ?_⟩
      intro o ho o' ho'
      simp only [List.mem_singleton] at ho'
      subst ho'
      refine ⟨fun hc => hadm.1 (hc ▸ h1 o ho), fun hop hopc hc => ?_⟩
      rcases hadm.2 with hminus | hcomm
      · rw [hopc] at hminus
        exact absurd hminus (by decide)
      · exact hcomm (hc ▸ h1 o ho)

theorem add_ops_inv (l : List Operation) :
    ∀ (s : OpsBuilder), (∀ o ∈ s.operations, canonKey o ∈ s.used) →
      noDupKeys s.operations →
      (∀ o ∈ (s.add_ops l).operations, canonKey o ∈ (s.add_ops l).used) ∧
        noDupKeys (s.add_ops l).operations := by
  induction l with
  | nil => intro s h1 h2; exact ⟨h1, h2⟩
  | cons o rest ih =>
    intro s h1 h2
    have h := addOne_inv s o h1 h2
    exact ih (addOne s o) h.1 h.2

/-- Claim C1: in any run, no two problems in the final (shuffled, printed)
collection share the canonical key `(a, b, op)`, and no two `+` problems
are equal under the commuted key `(b, a, +)` either; this holds for the
merge of any three batches through the shared builder registry, and in
particular for every terminating pipeline run. -/
theorem pipeline_unique_keys :
    (∀ (l1 l2 l3 : List Operation) (r : Rng),
      noDupKeys
        (OpsBuilder.shuffle (((OpsBuilder.new.add_ops l1).add_ops l2).add_ops l3) r).1.operations)
  ∧ (∀ n1 lo hi n2 n3 fuel r l,
      pipelineOps n1 lo hi n2 n3 fuel r = some l → noDupKeys l) := by
  have key : ∀ (l1 l2 l3 : List Operation) (r : Rng),
      noDupKeys
        (OpsBuilder.shuffle (((OpsBuilder.new.add_ops l1).add_ops l2).add_ops l3) r).1.operations := by
    intro l1 l2 l3 r
    have h1 := add_ops_inv l1 OpsBuilder.new (by simp [OpsBuilder.new])
      (by simp [noDupKeys, OpsBuilder.new])
    have h2 := add_ops_inv l2 _ h1.1 h1.2
    have h3 := add_ops_inv l3 _ h2.1 h2.2
    unfold noDupKeys at h3 ⊢
    exact (List.Perm.pairwise_iff (fun {a b} h => uniq_rel_symm h) (shuffle_perm _ r)).2 h3.2
  refine ⟨key, ?_⟩
  intro n1 lo hi n2 n3 fuel r l h
  unfold pipelineOps at h
  rcases Option.map_eq_some'.1 h with ⟨⟨b, r4⟩, hp, hbl⟩
  obtain ⟨l1, r1, l2, r2, l3, r3, -, -, -, heq⟩ :=
    pipeline_cases n1 lo hi n2 n3 fuel r b r4 hp
  have hb : b = (OpsBuilder.shuffle (((OpsBuilder.new.add_ops l1).add_ops l2).add_ops l3) r3).1 :=
    congrArg Prod.fst heq
  simp only at hbl
  rw [← hbl, hb]
  exact key l1 l2 l3 r3

/-- Witness for C1 at the concrete (0, 1, 1) run on the constant-7 stream,
whose final collection is the single problem `18 - 9`. -/
theorem pipeline_unique_keys_witness : noDupKeys [⟨18, 9, '-'⟩] :=
  pipeline_unique_keys.2 0 1 19 1 1 5 sevenRng [⟨18, 9, '-'⟩] (by decide)

/-! ### Claim C2: the output count (corrected) -/

theorem addOne_length_le (s : OpsBuilder) (op : Operation) :
    (addOne s op).operations.length ≤ s.operations.length + 1 := by
  unfold addOne
  split
  · simp
  · simp

theorem add_ops_length_le (l : List Operation) :
    ∀ s : OpsBuilder, (s.add_ops l).operations.length ≤ s.operations.length + l.length := by
  induction l with
  | nil => intro s; simp [OpsBuilder.add_ops]
  | cons o rest ih =>
    intro s
    have h1 := ih (addOne s o)
    have h2 := addOne_length_le s o
    show ((addOne s o).add_ops rest).operations.length ≤ _
    simp only [List.length_cons]
    omega

theorem generate_ops_go_length (n lo hi : Nat) : ∀ (fuel : Nat) (ops : List Operation)
    (used : List Key) (r : Rng) (l : List Operation) (r' : Rng),
    generate_ops_go n lo hi fuel ops used r = some (l, r') →
    ops.length ≤ n → l.length = n := by
  intro fuel
  induction fuel with
  | zero =>
    intro ops used r l r' h
    simp [generate_ops_go] at h
  | succ fuel ih =>
    intro ops used r l r' h hlen
    simp only [generate_ops_go] at h
    split at h
    case isTrue hge =>
      simp only [Option.some.injEq, Prod.mk.injEq] at h
      obtain ⟨rfl, rfl⟩ := h
      omega
    case isFalse hge =>
      split at h
      case isTrue hskip => exact ih _ _ _ l r' h hlen
      case isFalse hskip =>
        split at h
        case isTrue hcoin =>
          split at h
          case isTrue hmem => exact ih _ _ _ l r' h hlen
          case isFalse hmem => exact ih _ _ _ l r' h (by simp; omega)
        case isFalse hcoin =>
          split at h
          case isTrue hba =>
            split at h
            case isTrue hmem => exact ih _ _ _ l r' h hlen
            case isFalse hmem => exact ih _ _ _ l r' h (by simp; omega)
          case isFalse hba => exact ih _ _ _ l r' h hlen

theorem admitsAll_of_disjoint (l : List Operation) :
    ∀ (u u' : List Key), admitsAll u l → (∀ k ∈ batchKeys l, k ∈ u' → k ∈ u) →
      admitsAll u' l := by
  induction l with
  | nil => intro u u' _ _; trivial
  | cons o rest ih =>
    intro u u' h hsub
    obtain ⟨hadm, hrest⟩ := h
    constructor
    · constructor
      · intro hc
        exact hadm.1 (hsub _
          (by rw [batchKeys_cons]; exact List.mem_append_left _ (mem_opKeys_canon o)) hc)
      · by_cases ho : o.op = '-'
        · exact Or.inl ho
        · rcases hadm.2 with hm | hm
          · exact Or.inl hm
          · refine Or.inr fun hc => hm (hsub _
              (by rw [batchKeys_cons]; exact List.mem_append_left _ (mem_opKeys_comm o ho)) hc)
    · refine ih (insertKeys o u) (insertKeys o u') hrest ?_
      intro k hk hk'
      rcases (mem_insertKeys k o u').1 hk' with rfl | ⟨hp, rfl⟩ | hk''
      · exact (mem_insertKeys _ o u).2 (Or.inl rfl)
      · exact (mem_insertKeys _ o u).2 (Or.inr (Or.inl ⟨hp, rfl⟩))
      · refine (mem_insertKeys _ o u).2 (Or.inr (Or.inr ?_))
        exact hsub k (by rw [batchKeys_cons]; exact List.mem_append_right _ hk) hk''

theorem add_ops_admitsAll (l : List Operation) :
    ∀ (s : OpsBuilder), admitsAll s.used l →
      (s.add_ops l).operations = s.operations ++ l ∧
      (s.add_ops l).used = foldInsert s.used l := by
  induction l with
  | nil => intro s _; exact ⟨by simp [OpsBuilder.add_ops], rfl⟩
  | cons o rest ih =>
    intro s h
    obtain ⟨hadm, hrest⟩ := h
    have hone : addOne s o = ⟨s.operations ++ [o], insertKeys o s.used⟩ := by
      unfold addOne insertKeys
      rw [if_pos hadm]
    have hstep : s.add_ops (o :: rest) = (addOne s o).add_ops rest := rfl
    rw [hstep, hone]
    obtain ⟨h1, h2⟩ := ih ⟨s.operations ++ [o], insertKeys o s.used⟩ hrest
    refine ⟨?_, ?_⟩
    · rw [h1]
      simp
    · rw [h2]
      rfl

/-- Counterexample to C2 as stated: the run with requested counts
`(0, 1, 1)` on the constant-7 draw stream makes both subtract-nine
generators produce `18 - 9`; `add_ops` silently drops the cross-batch
duplicate, so only 1 problem line is printed instead of `0 + 1 + 1 = 2`. -/
theorem pipeline_count_counterexample :
    pipelineOps 0 1 19 1 1 5 sevenRng = some [⟨18, 9, '-'⟩] ∧
    ([(⟨18, 9, '-'⟩ : Operation)] : List Operation).length ≠ 0 + 1 + 1 :=
  ⟨by decide, by decide⟩

/-- Claim C2 (amended): the number of printed problem lines is at most
`n1 + n2 + n3`, with equality whenever the three generated batches have
pairwise disjoint key sets (no cross-batch duplicate is dropped at merge
time); it can fall short of the sum when batches collide. -/
theorem pipeline_count_amended :
    (∀ n1 lo hi n2 n3 fuel r l, pipelineOps n1 lo hi n2 n3 fuel r = some l →
      l.length ≤ n1 + n2 + n3)
  ∧ (∀ (n1 lo hi n2 n3 fuel : Nat) (r r1 r2 r3 : Rng) (l1 l2 l3 : List Operation),
      lo ≤ hi → hi < u32Mod →
      generate_ops n1 lo hi fuel r = some (l1, r1) →
      generate_sub_with_nine n2 fuel r1 = some (l2, r2) →
      generate_sub_to_nine n3 fuel r2 = some (l3, r3) →
      (∀ k ∈ batchKeys l2, k ∉ batchKeys l1) →
      (∀ k ∈ batchKeys l3, k ∉ batchKeys l1) →
      (∀ k ∈ batchKeys l3, k ∉ batchKeys l2) →
      ∀ l, pipelineOps n1 lo hi n2 n3 fuel r = some l → l.length = n1 + n2 + n3) := by
  constructor
  · intro n1 lo hi n2 n3 fuel r l h
    unfold pipelineOps at h
    rcases Option.map_eq_some'.1 h with ⟨⟨b, r4⟩, hp, hbl⟩
    obtain ⟨l1, r1, l2, r2, l3, r3, hg1, hg2, hg3, heq⟩ :=
      pipeline_cases n1 lo hi n2 n3 fuel r b r4 hp
    have hb : b =
        (OpsBuilder.shuffle (((OpsBuilder.new.add_ops l1).add_ops l2).add_ops l3) r3).1 :=
      congrArg Prod.fst heq
    have hlen1 := generate_ops_go_length n1 lo hi fuel [] [] r l1 r1 hg1 (by simp)
    obtain ⟨hlen2, -, -, -⟩ := sub_with_nine_go_spec n2 fuel [] [] r1 l2 r2 hg2
      (by simp) rfl trivial (by simp) (by simp)
    obtain ⟨hlen3, -, -, -⟩ := sub_to_nine_go_spec n3 fuel [] [] r2 l3 r3 hg3
      (by simp) rfl trivial (by simp) (by simp)
    have hb1 := add_ops_length_le l1 OpsBuilder.new
    have hb2 := add_ops_length_le l2 (OpsBuilder.new.add_ops l1)
    have hb3 := add_ops_length_le l3 ((OpsBuilder.new.add_ops l1).add_ops l2)
    have hshuf :=
      (shuffle_perm (((OpsBuilder.new.add_ops l1).add_ops l2).add_ops l3) r3).length_eq
    simp only at hbl
    rw [← hbl, hb]
    simp only [OpsBuilder.new] at hb1 hb2 hb3 hshuf ⊢
    simp only [List.length_nil] at hb1
    omega
  · intro n1 lo hi n2 n3 fuel r r1 r2 r3 l1 l2 l3 hlo hhi hg1 hg2 hg3 hd21 hd31 hd32 l h
    unfold pipelineOps at h
    rcases Option.map_eq_some'.1 h with ⟨⟨b, r4⟩, hp, hbl⟩
    obtain ⟨l1', r1', l2', r2', l3', r3', hg1', hg2', hg3', heq⟩ :=
      pipeline_cases n1 lo hi n2 n3 fuel r b r4 hp
    rw [hg1] at hg1'
    simp only [Option.some.injEq, Prod.mk.injEq] at hg1'
    obtain ⟨rfl, rfl⟩ := hg1'
    rw [hg2] at hg2'
    simp only [Option.some.injEq, Prod.mk.injEq] at hg2'
    obtain ⟨rfl, rfl⟩ := hg2'
    rw [hg3] at hg3'
    simp only [Option.some.injEq, Prod.mk.injEq] at hg3'
    obtain ⟨rfl, rfl⟩ := hg3'
    obtain ⟨-, hadm1, -⟩ := generate_ops_go_spec n1 lo hi hlo hhi fuel [] [] r l1 r1 hg1
      (by simp) rfl trivial (by simp)
    obtain ⟨-, hadm2, -, -⟩ := sub_with_nine_go_spec n2 fuel [] [] r1 l2 r2 hg2
      (by simp) rfl trivial (by simp) (by simp)
    obtain ⟨-, hadm3, -, -⟩ := sub_to_nine_go_spec n3 fuel [] [] r2 l3 r3 hg3
      (by simp) rfl trivial (by simp) (by simp)
    have hlen1 := generate_ops_go_length n1 lo hi fuel [] [] r l1 r1 hg1 (by simp)
    obtain ⟨hlen2, -, -, -⟩ := sub_with_nine_go_spec n2 fuel [] [] r1 l2 r2 hg2
      (by simp) rfl trivial (by simp) (by simp)
    obtain ⟨hlen3, -, -, -⟩ := sub_to_nine_go_spec n3 fuel [] [] r2 l3 r3 hg3
      (by simp) rfl trivial (by simp) (by simp)
    obtain ⟨hops1, hused1⟩ := add_ops_admitsAll l1 OpsBuilder.new hadm1
    have hadm2' : admitsAll (OpsBuilder.new.add_ops l1).used l2 := by
      rw [hused1]
      refine admitsAll_of_disjoint l2 [] _ hadm2 ?_
      intro k hk hk'
      rcases mem_foldInsert l1 _ k hk' with hc | hc
      · exact hc
      · exact absurd hc (hd21 k hk)
    obtain ⟨hops2, hused2⟩ := add_ops_admitsAll l2 _ hadm2'
    have hadm3' : admitsAll ((OpsBuilder.new.add_ops l1).add_ops l2).used l3 := by
      rw [hused2, hused1]
      refine admitsAll_of_disjoint l3 [] _ hadm3 ?_
      intro k hk hk'
      rcases mem_foldInsert l2 _ k hk' with hc | hc
      · rcases mem_foldInsert l1 _ k hc with hc' | hc'
        · exact hc'
        · exact absurd hc' (hd31 k hk)
      · exact absurd hc (hd32 k hk)
    obtain ⟨hops3, -⟩ := add_ops_admitsAll l3 _ hadm3'
    have hshuf :=
      (shuffle_perm (((OpsBuilder.new.add_ops l1).add_ops l2).add_ops l3) r3).length_eq
    have hb : b =
        (OpsBuilder.shuffle (((OpsBuilder.new.add_ops l1).add_ops l2).add_ops l3) r3).1 :=
      congrArg Prod.fst heq
    simp only at hbl
    rw [← hbl, hb]
    rw [hshuf, hops3, hops2, hops1]
    simp only [OpsBuilder.new, List.append_assoc, List.length_append, List.length_nil]
    omega

/-- Witness for the amended C2: the run with counts `(0, 1, 1)` on the draw
list `[7, 0]` yields the disjoint batches `[18 - 9]` and `[11 - 2]`, and
exactly `0 + 1 + 1 = 2` lines are printed. -/
theorem pipeline_count_amended_witness :
    ([(⟨11, 2, '-'⟩ : Operation), ⟨18, 9, '-'⟩] : List Operation).length = 0 + 1 + 1 :=
  pipeline_count_amended.2 0 1 19 1 1 5 (listRng [7, 0]) (listRng [7, 0])
    ⟨(listRng [7, 0]).stream, 1⟩ ⟨(listRng [7, 0]).stream, 2⟩ [] [⟨18, 9, '-'⟩] [⟨11, 2, '-'⟩]
    (by decide) (by decide) rfl rfl rfl (by decide) (by decide) (by decide)
    [⟨11, 2, '-'⟩, ⟨18, 9, '-'⟩] (by decide)

/-! ### Claim C8: the shuffle is an unbiased Fisher–Yates permutation -/

theorem fyRef_congr (d d' : Nat → Nat) : ∀ (i : Nat) (l : List Operation),
    (∀ k, 1 ≤ k → k ≤ i → d k = d' k) → fyRef d i l = fyRef d' i l := by
  intro i
  induction i with
  | zero => intro l _; rfl
  | succ i ih =>
    intro l hagree
    show fyRef d i (listSwap l (i + 1) (d (i + 1))) =
      fyRef d' i (listSwap l (i + 1) (d' (i + 1)))
    rw [hagree (i + 1) (by omega) (by omega)]
    exact ih _ fun k h1 h2 => hagree k h1 (by omega)

theorem shuffleGo_eq_fyRef : ∀ (i : Nat) (l : List Operation) (r : Rng),
    shuffleGo i l r =
      (fyRef (fun k => r.stream (r.pos + (i - k)) % (k + 1)) i l,
        ⟨r.stream, r.pos + i⟩) := by
  intro i
  induction i with
  | zero => intro l r; rfl
  | succ i ih =>
    intro l r
    show shuffleGo i (listSwap l (i + 1) (genRange 0 (i + 1) r).1) (genRange 0 (i + 1) r).2 = _
    have hfst : (genRange 0 (i + 1) r).1 = r.stream r.pos % (i + 2) := by
      simp [genRange, Rng.next]
    have hsnd : (genRange 0 (i + 1) r).2 = ⟨r.stream, r.pos + 1⟩ := rfl
    rw [hfst, hsnd, ih]
    have hfy : fyRef (fun k => r.stream (r.pos + 1 + (i - k)) % (k + 1)) i
          (listSwap l (i + 1) (r.stream r.pos % (i + 2))) =
        fyRef (fun k => r.stream (r.pos + (i + 1 - k)) % (k + 1)) (i + 1) l := by
      show _ = fyRef (fun k => r.stream (r.pos + (i + 1 - k)) % (k + 1)) i
        (listSwap l (i + 1) (r.stream (r.pos + (i + 1 - (i + 1))) % (i + 1 + 1)))
      rw [Nat.sub_self, Nat.add_zero]
      exact fyRef_congr _ _ i _ fun k h1 h2 => by
        have : r.pos + 1 + (i - k) = r.pos + (i + 1 - k) := by omega
        rw [this]
    rw [hfy]
    have : r.pos + 1 + i = r.pos + (i + 1) := by omega
    rw [this]

theorem listSwap_append (l : List α) (x : α) (i j : Nat)
    (hi : i < l.length) (hj : j < l.length) :
    listSwap (l ++ [x]) i j = listSwap l i j ++ [x] := by
  have hi' : i < (l ++ [x]).length := by simp; omega
  have hj' : j < (l ++ [x]).length := by simp; omega
  unfold listSwap
  rw [dif_pos ⟨hi', hj'⟩, dif_pos ⟨hi, hj⟩]
  simp only [List.get_eq_getElem]
  rw [List.getElem_append_left hj, List.getElem_append_left hi]
  rw [List.set_append_left _ _ hi]
  rw [List.set_append_left _ _ (by simpa using hj)]

theorem listSwap_length (l : List α) (i j : Nat) :
    (listSwap l i j).length = l.length :=
  (listSwap_perm l i j).length_eq

theorem fyRef_append (d : Nat → Nat) (hd : ∀ k, d k ≤ k) :
    ∀ (i : Nat) (l : List Operation) (x : Operation), i < l.length →
    fyRef d i (l ++ [x]) = fyRef d i l ++ [x] := by
  intro i
  induction i with
  | zero => intro l x _; rfl
  | succ i ih =>
    intro l x hi
    show fyRef d i (listSwap (l ++ [x]) (i + 1) (d (i + 1))) =
      fyRef d i (listSwap l (i + 1) (d (i + 1))) ++ [x]
    rw [listSwap_append l x (i + 1) (d (i + 1)) hi (by have := hd (i + 1); omega)]
    exact ih _ x (by rw [listSwap_length]; omega)

theorem listSwap_self (l : List α) (i : Nat) : listSwap l i i = l := by
  unfold listSwap
  split
  case isFalse _ => rfl
  case isTrue h =>
    rw [List.set_set]
    simp only [List.get_eq_getElem]
    have hself := set_get_self l i h.1
    simp only [List.get_eq_getElem] at hself
    exact hself

theorem listSwap_last (l : List α) (x : α) (j : Nat) (hj : j < l.length) :
    listSwap (l ++ [x]) l.length j = l.set j x ++ [l[j]] := by
  have h1 : l.length < (l ++ [x]).length := by simp
  have h2 : j < (l ++ [x]).length := by simp; omega
  unfold listSwap
  rw [dif_pos ⟨h1, h2⟩]
  simp only [List.get_eq_getElem]
  rw [List.getElem_append_left hj]
  rw [List.getElem_concat_length _ _ _ rfl]
  rw [List.set_append_right _ _ (Nat.le_refl _)]
  simp only [Nat.sub_self, List.set_cons_zero]
  rw [List.set_append_left _ _ hj]

theorem nodup_set_of_not_mem (l : List α) (j : Nat) (hj : j < l.length) (x : α)
    (hnd : l.Nodup) (hx : x ∉ l) : (l.set j x).Nodup := by
  rw [List.set_eq_take_cons_drop x hj]
  rw [← List.take_append_drop j l, List.drop_eq_getElem_cons hj] at hnd hx
  simp only [List.nodup_append, List.nodup_cons, List.mem_append, List.mem_cons,
    List.disjoint_cons_right] at hnd hx ⊢
  tauto


theorem getD_eq_getElem (l : List α) (n : Nat) (a : α) (h : n < l.length) :
    l.getD n a = l[n] := by
  simp [List.getD_eq_getElem?_getD, List.getElem?_eq_getElem h]

theorem listSwap_last_getD (l : List α) (x : α) (j : Nat) (hj : j < l.length) :
    listSwap (l ++ [x]) l.length j = l.set j x ++ [l.getD j x] := by
  rw [getD_eq_getElem l j x hj]
  exact listSwap_last l x j hj

theorem fyRef_concat_lt (l₀ : List Operation) (x : Operation) (d : Nat → Nat)
    (hd : ∀ k, d k ≤ k) (hlt : d l₀.length < l₀.length) :
    fyRef d l₀.length (l₀ ++ [x]) =
      fyRef d (l₀.length - 1) (l₀.set (d l₀.length) x) ++ [l₀.getD (d l₀.length) x] := by
  obtain ⟨m, hm⟩ : ∃ m, l₀.length = m + 1 := ⟨l₀.length - 1, by omega⟩
  have hswap := listSwap_last_getD l₀ x (d l₀.length) hlt
  rw [hm] at hswap ⊢
  rw [show fyRef d (m + 1) (l₀ ++ [x]) =
    fyRef d m (listSwap (l₀ ++ [x]) (m + 1) (d (m + 1))) from rfl]
  rw [hswap]
  rw [fyRef_append d hd m _ _ (by rw [List.length_set]; omega)]
  simp only [Nat.add_sub_cancel]

theorem fyRef_concat_last (l₀ : List Operation) (x : Operation) (d : Nat → Nat)
    (hd : ∀ k, d k ≤ k) (heq : d l₀.length = l₀.length) :
    fyRef d l₀.length (l₀ ++ [x]) = fyRef d (l₀.length - 1) l₀ ++ [x] := by
  by_cases h0 : l₀.length = 0
  · rw [h0]
    rfl
  · obtain ⟨m, hm⟩ : ∃ m, l₀.length = m + 1 := ⟨l₀.length - 1, by omega⟩
    rw [hm] at heq ⊢
    rw [show fyRef d (m + 1) (l₀ ++ [x]) =
      fyRef d m (listSwap (l₀ ++ [x]) (m + 1) (d (m + 1))) from rfl]
    rw [heq, listSwap_self]
    rw [fyRef_append d hd m l₀ x (by omega)]
    simp only [Nat.add_sub_cancel]

theorem fy_exists_unique_aux : ∀ (n : Nat) (l : List Operation), l.length = n → l.Nodup →
    ∀ l' : List Operation, List.Perm l' l →
      ∃! d : fyDrawSpace n, fyRef d.val (n - 1) l = l' := by
  intro n
  induction n with
  | zero =>
    intro l hlen hnd l' hp
    obtain rfl : l = [] := List.length_eq_zero.1 hlen
    obtain rfl : l' = [] := hp.eq_nil
    refine ⟨⟨fun _ => 0, fun k => Nat.zero_le k, fun k _ => rfl⟩, rfl, ?_⟩
    rintro ⟨d, hd1, hd2⟩ -
    apply Subtype.ext
    funext k
    exact hd2 k (Nat.zero_le k)
  | succ n ih =>
    intro l hlen hnd l' hp
    rcases List.eq_nil_or_concat l with rfl | ⟨l₀, x, hcat⟩
    · simp at hlen
    rw [List.concat_eq_append] at hcat
    subst hcat
    have hl0 : l₀.length = n := by simp at hlen; omega
    have hxl : x ∉ l₀ ∧ l₀.Nodup := by
      rw [List.nodup_append] at hnd
      exact ⟨fun hc => (hnd.2.2 hc) (by simp), hnd.1⟩
    have hl' : l'.length = n + 1 := by rw [hp.length_eq]; simp [hl0]
    rcases List.eq_nil_or_concat l' with rfl | ⟨l'₀, z, hcat'⟩
    · simp at hl'
    rw [List.concat_eq_append] at hcat'
    subst hcat'
    have hz : z ∈ l₀ ++ [x] := hp.subset (by simp)
    rcases List.mem_append.1 hz with hzl | hzx
    · -- the last output element z sits inside l₀ at index j₀
      obtain ⟨j₀, hj₀, hj₀z⟩ := List.mem_iff_getElem.1 hzl
      have hzx : z ≠ x := fun hc => hxl.1 (hc ▸ hzl)
      have hpnd : (l₀.set j₀ x).Nodup := nodup_set_of_not_mem l₀ j₀ hj₀ x hxl.2 hxl.1
      have hplen : (l₀.set j₀ x).length = n := by rw [List.length_set]; exact hl0
      have hperm0 : List.Perm l'₀ (l₀.set j₀ x) := by
        have h1 : List.Perm (l₀.set j₀ x ++ [l₀[j₀]]) (l₀ ++ [x]) := set_get_perm l₀ j₀ hj₀ x
        rw [hj₀z] at h1
        exact (List.perm_append_right_iff [z]).1 (hp.trans h1.symm)
      obtain ⟨d', hd'eq, hd'uniq⟩ := ih (l₀.set j₀ x) hplen hpnd l'₀ hperm0
      have heb : ∀ k, overrideAt d'.val n j₀ k ≤ k := by
        intro k
        unfold overrideAt
        split
        · rename_i hk
          omega
        · exact d'.2.1 k
      have hep : ∀ k, n + 1 ≤ k → overrideAt d'.val n j₀ k = 0 := by
        intro k hk
        unfold overrideAt
        rw [if_neg (by omega)]
        exact d'.2.2 k (by omega)
      have hen : overrideAt d'.val n j₀ n = j₀ := by
        unfold overrideAt
        simp
      have heeq : fyRef (overrideAt d'.val n j₀) (n + 1 - 1) (l₀ ++ [x]) = l'₀ ++ [z] := by
        simp only [Nat.add_sub_cancel]
        have hccl := fyRef_concat_lt l₀ x (overrideAt d'.val n j₀) heb
          (by rw [hl0, hen]; omega)
        rw [hl0, hen] at hccl
        rw [hccl, getD_eq_getElem _ _ _ hj₀, hj₀z]
        congr 1
        rw [fyRef_congr (overrideAt d'.val n j₀) d'.val (n - 1) _
          (fun k h1 h2 => by unfold overrideAt; rw [if_neg (by omega)])]
        exact hd'eq
      refine ⟨⟨overrideAt d'.val n j₀, heb, hep⟩, heeq, ?_⟩
      rintro ⟨f, hfb, hfp⟩ hf
      simp only [Nat.add_sub_cancel] at hf
      rcases Nat.lt_or_ge (f n) n with hlt | hge
      · have hccl := fyRef_concat_lt l₀ x f hfb (by rw [hl0]; exact hlt)
        rw [hl0] at hccl
        rw [hccl] at hf
        obtain ⟨hpre, hlast⟩ := List.append_inj' hf rfl
        have hflen : f n < l₀.length := by omega
        have hlast' : l₀[f n] = z := by
          have h2 := hlast
          rw [getD_eq_getElem _ _ _ hflen] at h2
          simpa using h2
        have hidx : f n = j₀ := by
          have hinj := List.nodup_iff_injective_getElem.1 hxl.2
          have h3 := @hinj ⟨f n, hflen⟩ ⟨j₀, hj₀⟩
            (by simpa using hlast'.trans hj₀z.symm)
          exact congrArg Fin.val h3
        rw [hidx] at hpre
        have hgb : ∀ k, overrideAt f n 0 k ≤ k := by
          intro k
          unfold overrideAt
          split
          · omega
          · exact hfb k
        have hgp : ∀ k, n ≤ k → overrideAt f n 0 k = 0 := by
          intro k hk
          unfold overrideAt
          split
          · rfl
          · rename_i hkn
            exact hfp k (by omega)
        have hgeq : fyRef (overrideAt f n 0) (n - 1) (l₀.set j₀ x) = l'₀ := by
          rw [← hpre]
          exact fyRef_congr _ f (n - 1) _
            (fun k h1 h2 => by unfold overrideAt; rw [if_neg (by omega)])
        have huniq := hd'uniq ⟨overrideAt f n 0, hgb, hgp⟩ hgeq
        apply Subtype.ext
        funext k
        show f k = overrideAt d'.val n j₀ k
        unfold overrideAt
        split
        · rename_i hk
          rw [hk]
          exact hidx
        · rename_i hk
          have h1 : d'.val k = overrideAt f n 0 k := by rw [← huniq]
          rw [h1]
          unfold overrideAt
          rw [if_neg hk]
      · have hfeq : f n = n := by
          have := hfb n
          omega
        have hccl := fyRef_concat_last l₀ x f hfb (by rw [hl0]; exact hfeq)
        rw [hl0] at hccl
        rw [hccl] at hf
        obtain ⟨-, hlast⟩ := List.append_inj' hf rfl
        have : x = z := by simpa using hlast
        exact absurd this.symm hzx
    · -- the last output element is x itself (x = z after substitution)
      have hzx' : z = x := by simpa using hzx
      subst hzx'
      have hperm0 : List.Perm l'₀ l₀ := (List.perm_append_right_iff [z]).1 hp
      obtain ⟨d', hd'eq, hd'uniq⟩ := ih l₀ hl0 hxl.2 l'₀ hperm0
      have heb : ∀ k, overrideAt d'.val n n k ≤ k := by
        intro k
        unfold overrideAt
        split
        · rename_i hk
          omega
        · exact d'.2.1 k
      have hep : ∀ k, n + 1 ≤ k → overrideAt d'.val n n k = 0 := by
        intro k hk
        unfold overrideAt
        rw [if_neg (by omega)]
        exact d'.2.2 k (by omega)
      have hen : overrideAt d'.val n n n = n := by
        unfold overrideAt
        simp
      have heeq : fyRef (overrideAt d'.val n n) (n + 1 - 1) (l₀ ++ [z]) = l'₀ ++ [z] := by
        simp only [Nat.add_sub_cancel]
        have hccl := fyRef_concat_last l₀ z (overrideAt d'.val n n) heb (by rw [hl0, hen])
        rw [hl0] at hccl
        rw [hccl]
        congr 1
        rw [fyRef_congr (overrideAt d'.val n n) d'.val (n - 1) _
          (fun k h1 h2 => by unfold overrideAt; rw [if_neg (by omega)])]
        exact hd'eq
      refine ⟨⟨overrideAt d'.val n n, heb, hep⟩, heeq, ?_⟩
      rintro ⟨f, hfb, hfp⟩ hf
      simp only [Nat.add_sub_cancel] at hf
      rcases Nat.lt_or_ge (f n) n with hlt | hge
      · have hccl := fyRef_concat_lt l₀ z f hfb (by rw [hl0]; exact hlt)
        rw [hl0] at hccl
        rw [hccl] at hf
        obtain ⟨-, hlast⟩ := List.append_inj' hf rfl
        have hflen : f n < l₀.length := by omega
        have hlast' : l₀[f n] = z := by
          have h2 := hlast
          rw [getD_eq_getElem _ _ _ hflen] at h2
          simpa using h2
        exact absurd (List.mem_iff_getElem.2 ⟨f n, hflen, hlast'⟩) hxl.1
      · have hfeq : f n = n := by
          have := hfb n
          omega
        have hccl := fyRef_concat_last l₀ z f hfb (by rw [hl0]; exact hfeq)
        rw [hl0] at hccl
        rw [hccl] at hf
        obtain ⟨hpre, -⟩ := List.append_inj' hf rfl
        have hgb : ∀ k, overrideAt f n 0 k ≤ k := by
          intro k
          unfold overrideAt
          split
          · omega
          · exact hfb k
        have hgp : ∀ k, n ≤ k → overrideAt f n 0 k = 0 := by
          intro k hk
          unfold overrideAt
          split
          · rfl
          · rename_i hkn
            exact hfp k (by omega)
        have hgeq : fyRef (overrideAt f n 0) (n - 1) l₀ = l'₀ := by
          rw [← hpre]
          exact fyRef_congr _ f (n - 1) _
            (fun k h1 h2 => by unfold overrideAt; rw [if_neg (by omega)])
        have huniq := hd'uniq ⟨overrideAt f n 0, hgb, hgp⟩ hgeq
        apply Subtype.ext
        funext k
        show f k = overrideAt d'.val n n k
        unfold overrideAt
        split
        · rename_i hk
          rw [hk]
          exact hfeq
        · rename_i hk
          have h1 : d'.val k = overrideAt f n 0 k := by rw [← huniq]
          rw [h1]
          unfold overrideAt
          rw [if_neg hk]

/-- Claim C8: `shuffle` is the Fisher–Yates shuffle — it coincides with the
reference loop "for i from the last index down to 1, swap position i with
a drawn j in [0, i]", its result is always a permutation of the input, and
the map from draw vectors to outcomes is a bijection: for every target
permutation of a duplicate-free collection there is exactly one draw
vector producing it, so uniform independent draws make every permutation
equally likely. -/
theorem shuffle_fisher_yates_unbiased :
    (∀ (s : OpsBuilder) (r : Rng), ∃ d : Nat → Nat, (∀ k, d k ≤ k) ∧
      (OpsBuilder.shuffle s r).1.operations = fyRef d (s.operations.length - 1) s.operations)
  ∧ (∀ (s : OpsBuilder) (r : Rng),
      List.Perm (OpsBuilder.shuffle s r).1.operations s.operations)
  ∧ (∀ l : List Operation, l.Nodup → ∀ l' : List Operation, List.Perm l' l →
      ∃! d : fyDrawSpace l.length, fyRef d.val (l.length - 1) l = l') := by
  refine ⟨?_, shuffle_perm, ?_⟩
  · intro s r
    refine ⟨fun k => r.stream (r.pos + (s.operations.length - 1 - k)) % (k + 1), ?_, ?_⟩
    · intro k
      show r.stream (r.pos + (s.operations.length - 1 - k)) % (k + 1) ≤ k
      have : r.stream (r.pos + (s.operations.length - 1 - k)) % (k + 1) < k + 1 :=
        Nat.mod_lt _ (by omega)
      omega
    · show (shuffleGo (s.operations.length - 1) s.operations r).1 = _
      rw [shuffleGo_eq_fyRef]
  · intro l hnd l' hp
    exact fy_exists_unique_aux l.length l rfl hnd l' hp

/-- Witness for C8: on the two-element collection `[3 + 5, 7 - 2]` there is
exactly one draw vector whose shuffle produces the reversed order. -/
theorem shuffle_fisher_yates_unbiased_witness :
    ∃! d : fyDrawSpace 2,
      fyRef d.val 1 [⟨3, 5, '+'⟩, ⟨7, 2, '-'⟩] = [⟨7, 2, '-'⟩, ⟨3, 5, '+'⟩] :=
  shuffle_fisher_yates_unbiased.2.2 [⟨3, 5, '+'⟩, ⟨7, 2, '-'⟩] (by decide)
    [⟨7, 2, '-'⟩, ⟨3, 5, '+'⟩] (by decide)
